import Mathlib

/-!
# SlateStyleViewer: the viewer panel `SEditorStyleViewer`

A shallow embedding of `Source/EditorStyleViewer/Private/EditorStyleViewer.cpp`.

The panel is a record of its fields and every member function is a function
from panel to panel.  The host toolkit is represented by values:

* `FString` / `FText` are lists of characters.
* `FName` is the engine's case-insensitive name.  It is represented by its
  comparison entry, the upper-cased text, so that `=` on `FName` is the
  engine's `==`.  The empty text is `NAME_None`, as is the text "None".
  `ToString` returns that text; the engine returns it in the casing it was
  first seen with, which is the same text up to case.
* A delegate is an `Option` of a function: `none` is an unbound delegate.
* `TMap<FName, V>` is an association list in insertion order.
* The style registry `FAppStyle::Get().GetStyleKeys()` is the list `Names`,
  the enumeration of the returned set, passed to the functions that read it.
* `SListView::SetSelection` delivers `OnSelectionChanged` for the item, and
  `RequestListRefresh` has no effect on the panel's fields.  Whatever the list
  view reports later on its own is an event of its own, `Event.SelectionChanged`.
* Two ghost fields record the calls the panel makes: `CreateWidgetTrace` for
  every `CreateWidget.Execute`, `SetSelectionTrace` for every `SetSelection`.
-/

namespace EditorStyleViewer

/-! ## Strings and names of the host -/

abbrev FString := List Char

abbrev FText := List Char

/-- Model of `TChar::ToUpper`: the ASCII letters a-z are moved to A-Z. -/
def ToUpper (c : Char) : Char := c.toUpper

/-- Model of `FCString::Strnicmp(Str, Find, Strlen(Find)) == 0`: the text `Find` is a prefix of
`Str`, ignoring case. -/
def Strnicmp : FString → FString → Bool
  | _, [] => true
  | [], _ :: _ => false
  | c :: Str, f :: Find => ToUpper c = ToUpper f && Strnicmp Str Find

/-- The scan of `FCString::Stristr` from offset `i`: the offset of the first place of `Str`
where `f :: Find` occurs ignoring case. -/
def StristrFrom (f : Char) (Find : FString) : FString → Nat → Option Nat
  | [], _ => none
  | c :: Str, i =>
    if ToUpper c = ToUpper f && Strnicmp Str Find then some i
    else StristrFrom f Find Str (i + 1)

/-- Model of `FCString::Stristr(Str, Find)`: the offset of the first occurrence, `none` for the
null result.  An empty `Find` never matches a character of `Str`. -/
def Stristr (Str Find : FString) : Option Nat :=
  match Find with
  | [] => none
  | f :: Find => StristrFrom f Find Str 0

/-- Model of `FString::Find(SubStr, ESearchCase::IgnoreCase)`: the index of the first occurrence,
or `INDEX_NONE` which is `-1`. -/
def Find (Str SubStr : FString) : Int :=
  match Stristr Str SubStr with
  | some i => (i : Int)
  | none => -1

/-- Model of `FName`: a non-empty text taken up to case. -/
structure FName where
  Text : FString
  nonempty : Text ≠ []
  folded : ∃ src : FString, Text = src.map ToUpper
deriving DecidableEq

/-- Model of `NAME_None`. -/
def NAME_None : FName := ⟨['N', 'O', 'N', 'E'], by decide, ⟨['N', 'O', 'N', 'E'], by decide⟩⟩

/-- Model of `FName(const TCHAR*)`: the empty text gives `NAME_None`. -/
def FName.ofString (s : FString) : FName :=
  if h : s = [] then NAME_None
  else ⟨s.map ToUpper, by simpa using h, ⟨s, rfl⟩⟩

/-- Model of `FName::ToString`. -/
def FName.ToString (n : FName) : FString := n.Text

/-- Model of `FName::IsNone`. -/
def FName.IsNone (n : FName) : Bool := decide (n = NAME_None)

/-- Model of `FString::Printf(TEXT("%d_%s"), Index, *Title)` for an index that is not negative. -/
def Printf_d_s (Index : Nat) (Title : FString) : FString :=
  Nat.toDigits 10 Index ++ '_' :: Title

/-! ## `TMap<FName, V>` -/

/-- Model of `TMap::Find`. -/
def TMapFind {V : Type} : List (FName × V) → FName → Option V
  | [], _ => none
  | (k, v) :: m, Key => if k = Key then some v else TMapFind m Key

/-- Model of `TMap::Add`: the value of a key already present is replaced in place, a new key is
added at the end. -/
def TMapAdd {V : Type} : List (FName × V) → FName → V → List (FName × V)
  | [], Key, Value => [(Key, Value)]
  | (k, v) :: m, Key, Value =>
    if k = Key then (Key, Value) :: m else (k, v) :: TMapAdd m Key Value

/-! ## The panel -/

/-- Model of `struct FEditorStylePreviewOption`. -/
structure FEditorStylePreviewOption (W : Type) where
  Title : FText
  Tooltip : FText
  CreateWidget : Option (FName → W)
  CanUseStyle : Option (FName → Bool)

/-- Model of `bFilterStyle && !Option->CanUseStyle.Execute(Name)` of `SetPreview`. -/
def FEditorStylePreviewOption.Rejects {W : Type} (Option : FEditorStylePreviewOption W)
    (Name : FName) : Bool :=
  match Option.CanUseStyle with
  | some CanUseStyle => !CanUseStyle Name
  | none => false

/-- What the content box holds. -/
inductive SWidget (W : Type) where
  | SNullWidget : SWidget W
  | Preview (w : W) : SWidget W
  | STextBlock (Text : FText) : SWidget W
deriving DecidableEq

/-- A slot of the wrap box built by `CreateToolbar`. -/
inductive ToolbarSlot where
  | STextBlock (Text : FText) : ToolbarSlot
  | SButton (Text : FText) (ToolTipText : FText) (OnClicked : FName) : ToolbarSlot
deriving DecidableEq

/-- Model of `ETextCommit::Type`. -/
inductive ETextCommit where
  | Default
  | OnEnter
  | OnUserMovedFocus
  | OnCleared
deriving DecidableEq

/-- The text of `LOCTEXT("Error_NotBound", "Not bound")`. -/
def Error_NotBound : FText := "Not bound".toList

/-- The text of `LOCTEXT("Error_NoWidget", "Not widget")`. -/
def Error_NoWidget : FText := "Not widget".toList

/-- Model of `class SEditorStyleViewer`: its fields, the toolbar it built, and the two traces. -/
structure SEditorStyleViewer (W : Type) where
  CurrentPreview : FName
  SelectedStyle : FName
  PreviewOptions : List (FName × FEditorStylePreviewOption W)
  ContentPanel : SWidget W
  SearchText : FText
  OptionList : List FString
  FilteredOptionList : List FString
  Toolbar : List ToolbarSlot
  CreateWidgetTrace : List (FName × FName)
  SetSelectionTrace : List FString

variable {W : Type}

/-- Model of `SEditorStyleViewer::RefreshPreview`. -/
def RefreshPreview (s : SEditorStyleViewer W) : SEditorStyleViewer W :=
  match TMapFind s.PreviewOptions s.CurrentPreview with
  | some Option =>
    match Option.CreateWidget with
    | some CreateWidget =>
      { s with
        ContentPanel := SWidget.Preview (CreateWidget s.SelectedStyle)
        CreateWidgetTrace := s.CreateWidgetTrace ++ [(s.CurrentPreview, s.SelectedStyle)] }
    | none => { s with ContentPanel := SWidget.STextBlock Error_NoWidget }
  | none => { s with ContentPanel := SWidget.STextBlock Error_NoWidget }

/-- Model of `SEditorStyleViewer::SetStyle`. -/
def SetStyle (Style : FString) (s : SEditorStyleViewer W) : SEditorStyleViewer W :=
  RefreshPreview { s with SelectedStyle := FName.ofString Style }

/-- Model of `SEditorStyleViewer::OnSelectionChanged`; `none` is the null selection. -/
def OnSelectionChanged (Selection : Option FString) (s : SEditorStyleViewer W) :
    SEditorStyleViewer W :=
  match Selection with
  | some Selection => SetStyle Selection s
  | none => SetStyle [] s

/-- Model of `OptionListView->SetSelection(Item)`: the list view reports the item to
`OnSelectionChanged`. -/
def SetSelection (Item : FString) (s : SEditorStyleViewer W) : SEditorStyleViewer W :=
  OnSelectionChanged (some Item) { s with SetSelectionTrace := s.SetSelectionTrace ++ [Item] }

/-- Model of `SEditorStyleViewer::RefreshOptions`. -/
def RefreshOptions (s : SEditorStyleViewer W) : SEditorStyleViewer W :=
  let s1 : SEditorStyleViewer W :=
    { s with
      FilteredOptionList :=
        if s.SearchText.isEmpty then s.OptionList
        else s.OptionList.filter fun Option =>
          s.SearchText.isEmpty || decide (Find Option s.SearchText ≥ 0) }
  if s1.SelectedStyle.IsNone then s1
  else
    match s1.FilteredOptionList.find? fun Option => FName.ofString Option = s1.SelectedStyle with
    | some Option => SetSelection Option s1
    | none => s1

/-- Model of `SEditorStyleViewer::SetPreview`, with `Names` the enumeration of
`FAppStyle::Get().GetStyleKeys()`. -/
def SetPreview (Names : List FName) (InType : FName) (s : SEditorStyleViewer W) :
    SEditorStyleViewer W :=
  let s1 : SEditorStyleViewer W := { s with CurrentPreview := InType }
  let s2 : SEditorStyleViewer W :=
    match TMapFind s1.PreviewOptions s1.CurrentPreview with
    | some Option =>
      let s3 : SEditorStyleViewer W :=
        { s1 with
          OptionList := (Names.filter fun Name => !Option.Rejects Name).map FName.ToString }
      if Option.Rejects s3.SelectedStyle then { s3 with SelectedStyle := NAME_None } else s3
    | none => s1
  RefreshPreview (RefreshOptions s2)

/-- Model of `SEditorStyleViewer::OnPreviewWidgetSelected`. -/
def OnPreviewWidgetSelected (Names : List FName) (Name : FName) (s : SEditorStyleViewer W) :
    SEditorStyleViewer W :=
  SetPreview Names Name s

/-- Model of `SEditorStyleViewer::OnSearchTextChanged`. -/
def OnSearchTextChanged (ChangedText : FText) (s : SEditorStyleViewer W) :
    SEditorStyleViewer W :=
  RefreshOptions { s with SearchText := ChangedText }

/-- Model of `SEditorStyleViewer::OnSearchTextCommitted`. -/
def OnSearchTextCommitted (_InText : FText) (InCommitType : ETextCommit)
    (s : SEditorStyleViewer W) : SEditorStyleViewer W :=
  match InCommitType, s.FilteredOptionList with
  | ETextCommit.OnEnter, First :: _ => SetSelection First s
  | _, _ => s

/-- The slots `CreateToolbar` adds for the pairs of `PreviewOptions`, in iteration order. -/
def CreateToolbarSlots : List (FName × FEditorStylePreviewOption W) → List ToolbarSlot
  | [] => []
  | (Key, Value) :: Pairs =>
    (if Value.CreateWidget.isSome then [] else [ToolbarSlot.STextBlock Error_NotBound])
      ++ ToolbarSlot.SButton Value.Title
          (if Value.Tooltip.isEmpty then Value.Title else Value.Tooltip) Key
      :: CreateToolbarSlots Pairs

/-- Model of `SEditorStyleViewer::CreateToolbar`. -/
def CreateToolbar (s : SEditorStyleViewer W) : List ToolbarSlot :=
  CreateToolbarSlots s.PreviewOptions

/-- The first loop of `Construct`, from `Index` on. -/
def AddPreviewOptions : Nat → List (FEditorStylePreviewOption W) →
    List (FName × FEditorStylePreviewOption W) → List (FName × FEditorStylePreviewOption W)
  | _, [], PreviewOptions => PreviewOptions
  | Index, Option :: Rest, PreviewOptions =>
    AddPreviewOptions (Index + 1) Rest
      (TMapAdd PreviewOptions (FName.ofString (Printf_d_s Index Option.Title)) Option)

/-- Model of `SEditorStyleViewer::Construct`: a panel with default fields registers the options,
builds its child widgets, and previews the first registered option. -/
def Construct (Names : List FName) (InPreviewOptions : List (FEditorStylePreviewOption W)) :
    SEditorStyleViewer W :=
  let s0 : SEditorStyleViewer W :=
    { CurrentPreview := NAME_None
      SelectedStyle := NAME_None
      PreviewOptions := AddPreviewOptions 0 InPreviewOptions []
      ContentPanel := SWidget.SNullWidget
      SearchText := []
      OptionList := []
      FilteredOptionList := []
      Toolbar := []
      CreateWidgetTrace := []
      SetSelectionTrace := [] }
  let s1 : SEditorStyleViewer W := { s0 with Toolbar := CreateToolbar s0 }
  match s1.PreviewOptions with
  | (Key, _) :: _ => SetPreview Names Key s1
  | [] => s1

/-! ## User input -/

/-- What the user can do to the panel. -/
inductive Event where
  | ToolbarClick (Name : FName)
  | SearchTextChanged (ChangedText : FText)
  | SearchTextCommitted (InText : FText) (InCommitType : ETextCommit)
  | SelectionChanged (Selection : Option FString)

/-- The handler the toolkit calls for an event. -/
def Event.handle (Names : List FName) (e : Event) (s : SEditorStyleViewer W) :
    SEditorStyleViewer W :=
  match e with
  | Event.ToolbarClick Name => OnPreviewWidgetSelected Names Name s
  | Event.SearchTextChanged ChangedText => OnSearchTextChanged ChangedText s
  | Event.SearchTextCommitted InText InCommitType => OnSearchTextCommitted InText InCommitType s
  | Event.SelectionChanged Selection => OnSelectionChanged Selection s

/-- An event the widgets of the panel can deliver: a click needs a button of the toolbar. -/
def Event.FromWidgets (s : SEditorStyleViewer W) : Event → Prop
  | Event.ToolbarClick Name => ∃ Text ToolTipText, ToolbarSlot.SButton Text ToolTipText Name ∈ s.Toolbar
  | _ => True

/-- An event of `FromWidgets` whose selection, if any, is an entry shown in the list. -/
def Event.FromList (s : SEditorStyleViewer W) : Event → Prop
  | Event.ToolbarClick Name => ∃ Text ToolTipText, ToolbarSlot.SButton Text ToolTipText Name ∈ s.Toolbar
  | Event.SelectionChanged Selection => ∃ Item ∈ s.FilteredOptionList, Selection = some Item
  | _ => True

/-- The panels reached from `Construct` by events that `Allowed` admits. -/
inductive Reachable (Allowed : SEditorStyleViewer W → Event → Prop) (Names : List FName)
    (InPreviewOptions : List (FEditorStylePreviewOption W)) : SEditorStyleViewer W → Prop where
  | construct : Reachable Allowed Names InPreviewOptions (Construct Names InPreviewOptions)
  | event (s : SEditorStyleViewer W) (e : Event) :
      Reachable Allowed Names InPreviewOptions s → Allowed s e →
      Reachable Allowed Names InPreviewOptions (e.handle Names s)

/-! ## The words of the specification -/

/-- The name contains the search text as a substring, ignoring case. -/
def ContainsIgnoreCase (SearchText Name : FString) : Prop :=
  SearchText.map ToUpper <:+: Name.map ToUpper

instance (SearchText Name : FString) : Decidable (ContainsIgnoreCase SearchText Name) :=
  inferInstanceAs (Decidable (SearchText.map ToUpper <:+: Name.map ToUpper))

/-- The predicate of a preview option: every name passes when none is bound. -/
def FEditorStylePreviewOption.Accepts (Option : FEditorStylePreviewOption W) (Name : FName) : Bool :=
  match Option.CanUseStyle with
  | some CanUseStyle => CanUseStyle Name
  | none => true

/-- The name satisfies the predicate of the mode: it holds when the mode is not registered
or has no bound predicate. -/
def PassesMode (s : SEditorStyleViewer W) (Mode Name : FName) : Bool :=
  match TMapFind s.PreviewOptions Mode with
  | some Option => Option.Accepts Name
  | none => true

/-- The filtered list is the part of the option list that matches the search text, and the
entries of the option list satisfy the predicate of the current mode. -/
def ListsConsistent (s : SEditorStyleViewer W) : Prop :=
  s.FilteredOptionList
      = s.OptionList.filter (fun Name => decide (ContainsIgnoreCase s.SearchText Name)) ∧
  ∀ Name ∈ s.OptionList, PassesMode s s.CurrentPreview (FName.ofString Name) = true

/-- The selected style is none or satisfies the predicate of the current mode, and so did
every style a render callback was called with, for the mode of the callback. -/
def SelectionConsistent (s : SEditorStyleViewer W) : Prop :=
  (s.SelectedStyle = NAME_None ∨ PassesMode s s.CurrentPreview s.SelectedStyle = true) ∧
  ∀ Call ∈ s.CreateWidgetTrace, Call.2 = NAME_None ∨ PassesMode s Call.1 Call.2 = true

/-- The pair that is to be registered for the option at an index: its key is
`<index>_<title>`. -/
def KeyedOption (p : Nat × FEditorStylePreviewOption W) : FName × FEditorStylePreviewOption W :=
  (FName.ofString (Printf_d_s p.1 p.2.Title), p.2)

/-- The mode button of a registered pair. -/
def ModeButton (Pair : FName × FEditorStylePreviewOption W) : ToolbarSlot :=
  ToolbarSlot.SButton Pair.2.Title
    (if Pair.2.Tooltip.isEmpty then Pair.2.Title else Pair.2.Tooltip) Pair.1

/-- The slot is a button. -/
def ToolbarSlot.IsButton : ToolbarSlot → Bool
  | ToolbarSlot.SButton _ _ _ => true
  | ToolbarSlot.STextBlock _ => false

/-! ## A sample panel -/

namespace Sample

/-- Three preview options over widgets that are texts: one with a predicate, one without,
one whose render callback is not bound. -/
def Options : List (FEditorStylePreviewOption FString) :=
  [ { Title := "Image".toList, Tooltip := [],
      CreateWidget := some fun StyleName => StyleName.ToString,
      CanUseStyle := some fun StyleName => decide (StyleName.ToString.length ≤ 4) },
    { Title := "Color".toList, Tooltip := "Solid color".toList,
      CreateWidget := some fun StyleName => 'c' :: StyleName.ToString,
      CanUseStyle := none },
    { Title := "Image".toList, Tooltip := [],
      CreateWidget := none,
      CanUseStyle := none } ]

/-- A registry of three style names. -/
def Names : List FName :=
  [FName.ofString "Icon".toList, FName.ofString "Border".toList, FName.ofString "Menu".toList]

/-- The panel after construction. -/
def Panel : SEditorStyleViewer FString := Construct Names Options

/-- The key of the first option. -/
def Key0 : FName := FName.ofString "0_Image".toList

/-- The key of the second option. -/
def Key1 : FName := FName.ofString "1_Color".toList

/-- The key of the third option. -/
def Key2 : FName := FName.ofString "2_Image".toList

/-- The panel after the search text "en" was typed and the button of the second option was
clicked. -/
def Switched : SEditorStyleViewer FString :=
  (Event.ToolbarClick Key1).handle Names ((Event.SearchTextChanged "en".toList).handle Names Panel)

/-- The panel after the entry "ICON" of the list was selected and the search text "en" was
typed. -/
def Searched : SEditorStyleViewer FString :=
  (Event.SearchTextChanged "en".toList).handle Names
    ((Event.SelectionChanged (some "ICON".toList)).handle Names Panel)

end Sample

/-! ## Case folding -/

theorem ToUpper_of_not_lower (c : Char) (h : ¬(97 ≤ c.toNat ∧ c.toNat ≤ 122)) : ToUpper c = c := by
  unfold ToUpper Char.toUpper
  simp only [ge_iff_le]
  rw [if_neg h]

theorem ToUpper_range (c : Char) (h : 97 ≤ c.toNat ∧ c.toNat ≤ 122) :
    65 ≤ (ToUpper c).toNat ∧ (ToUpper c).toNat ≤ 90 := by
  unfold ToUpper Char.toUpper
  simp only [ge_iff_le]
  rw [if_pos h]
  obtain ⟨h1, h2⟩ := h
  generalize c.toNat = n at h1 h2
  interval_cases n <;> decide

theorem ToUpper_idem (c : Char) : ToUpper (ToUpper c) = ToUpper c := by
  by_cases h : 97 ≤ c.toNat ∧ c.toNat ≤ 122
  · have hr := ToUpper_range c h
    exact ToUpper_of_not_lower _ (by omega)
  · rw [ToUpper_of_not_lower c h, ToUpper_of_not_lower c h]

theorem map_ToUpper_idem (s : FString) : (s.map ToUpper).map ToUpper = s.map ToUpper := by
  induction s with
  | nil => rfl
  | cons c s ih => simp [ToUpper_idem]

/-! ## Names -/

theorem FName.ext_Text {a b : FName} (h : a.Text = b.Text) : a = b := by
  cases a; cases b; cases h; rfl

theorem FName.map_ToUpper_Text (n : FName) : n.Text.map ToUpper = n.Text := by
  obtain ⟨src, h⟩ := n.folded
  rw [h, map_ToUpper_idem]

/-- A name is got back from its text. -/
theorem FName.ofString_ToString (n : FName) : FName.ofString n.ToString = n := by
  unfold FName.ofString FName.ToString
  rw [dif_neg n.nonempty]
  exact FName.ext_Text (FName.map_ToUpper_Text n)

theorem FName.ofString_nil : FName.ofString [] = NAME_None := by
  simp [FName.ofString]

theorem FName.ToString_injective : Function.Injective FName.ToString :=
  fun _ _ h => FName.ext_Text h

theorem FName.IsNone_iff (n : FName) : n.IsNone = true ↔ n = NAME_None := by
  simp [FName.IsNone]

/-! ## Frame of `RefreshPreview`, `SetStyle`, `SetSelection` -/

section frames

variable (s : SEditorStyleViewer W)

@[simp]
theorem RefreshPreview_CurrentPreview : (RefreshPreview s).CurrentPreview = s.CurrentPreview := by
  unfold RefreshPreview; split <;> [split; skip] <;> rfl

@[simp]
theorem RefreshPreview_SelectedStyle : (RefreshPreview s).SelectedStyle = s.SelectedStyle := by
  unfold RefreshPreview; split <;> [split; skip] <;> rfl

@[simp]
theorem RefreshPreview_PreviewOptions : (RefreshPreview s).PreviewOptions = s.PreviewOptions := by
  unfold RefreshPreview; split <;> [split; skip] <;> rfl

@[simp]
theorem RefreshPreview_SearchText : (RefreshPreview s).SearchText = s.SearchText := by
  unfold RefreshPreview; split <;> [split; skip] <;> rfl

@[simp]
theorem RefreshPreview_OptionList : (RefreshPreview s).OptionList = s.OptionList := by
  unfold RefreshPreview; split <;> [split; skip] <;> rfl

@[simp]
theorem RefreshPreview_FilteredOptionList :
    (RefreshPreview s).FilteredOptionList = s.FilteredOptionList := by
  unfold RefreshPreview; split <;> [split; skip] <;> rfl

@[simp]
theorem RefreshPreview_Toolbar : (RefreshPreview s).Toolbar = s.Toolbar := by
  unfold RefreshPreview; split <;> [split; skip] <;> rfl

@[simp]
theorem RefreshPreview_SetSelectionTrace :
    (RefreshPreview s).SetSelectionTrace = s.SetSelectionTrace := by
  unfold RefreshPreview; split <;> [split; skip] <;> rfl

/-- The calls `RefreshPreview` adds to the trace: one, of the current mode on the selected
style, when the mode is registered and bound, none otherwise. -/
theorem RefreshPreview_CreateWidgetTrace :
    (RefreshPreview s).CreateWidgetTrace = s.CreateWidgetTrace ∨
    ((RefreshPreview s).CreateWidgetTrace
        = s.CreateWidgetTrace ++ [(s.CurrentPreview, s.SelectedStyle)]) := by
  unfold RefreshPreview; split <;> [split; skip] <;> simp

variable (Style : FString)

@[simp]
theorem SetStyle_CurrentPreview : (SetStyle Style s).CurrentPreview = s.CurrentPreview := by
  simp [SetStyle]

@[simp]
theorem SetStyle_SelectedStyle : (SetStyle Style s).SelectedStyle = FName.ofString Style := by
  simp [SetStyle]

@[simp]
theorem SetStyle_PreviewOptions : (SetStyle Style s).PreviewOptions = s.PreviewOptions := by
  simp [SetStyle]

@[simp]
theorem SetStyle_SearchText : (SetStyle Style s).SearchText = s.SearchText := by
  simp [SetStyle]

@[simp]
theorem SetStyle_OptionList : (SetStyle Style s).OptionList = s.OptionList := by
  simp [SetStyle]

@[simp]
theorem SetStyle_FilteredOptionList :
    (SetStyle Style s).FilteredOptionList = s.FilteredOptionList := by
  simp [SetStyle]

@[simp]
theorem SetStyle_Toolbar : (SetStyle Style s).Toolbar = s.Toolbar := by
  simp [SetStyle]

@[simp]
theorem SetStyle_SetSelectionTrace :
    (SetStyle Style s).SetSelectionTrace = s.SetSelectionTrace := by
  simp [SetStyle]

theorem SetStyle_CreateWidgetTrace :
    (SetStyle Style s).CreateWidgetTrace = s.CreateWidgetTrace ∨
    ((SetStyle Style s).CreateWidgetTrace
        = s.CreateWidgetTrace ++ [(s.CurrentPreview, FName.ofString Style)]) := by
  have h := RefreshPreview_CreateWidgetTrace { s with SelectedStyle := FName.ofString Style }
  simpa [SetStyle] using h

variable (Item : FString)

@[simp]
theorem SetSelection_CurrentPreview : (SetSelection Item s).CurrentPreview = s.CurrentPreview := by
  simp [SetSelection, OnSelectionChanged]

@[simp]
theorem SetSelection_SelectedStyle : (SetSelection Item s).SelectedStyle = FName.ofString Item := by
  simp [SetSelection, OnSelectionChanged]

@[simp]
theorem SetSelection_PreviewOptions : (SetSelection Item s).PreviewOptions = s.PreviewOptions := by
  simp [SetSelection, OnSelectionChanged]

@[simp]
theorem SetSelection_SearchText : (SetSelection Item s).SearchText = s.SearchText := by
  simp [SetSelection, OnSelectionChanged]

@[simp]
theorem SetSelection_OptionList : (SetSelection Item s).OptionList = s.OptionList := by
  simp [SetSelection, OnSelectionChanged]

@[simp]
theorem SetSelection_FilteredOptionList :
    (SetSelection Item s).FilteredOptionList = s.FilteredOptionList := by
  simp [SetSelection, OnSelectionChanged]

@[simp]
theorem SetSelection_Toolbar : (SetSelection Item s).Toolbar = s.Toolbar := by
  simp [SetSelection, OnSelectionChanged]

@[simp]
theorem SetSelection_SetSelectionTrace :
    (SetSelection Item s).SetSelectionTrace = s.SetSelectionTrace ++ [Item] := by
  simp [SetSelection, OnSelectionChanged]

theorem SetSelection_CreateWidgetTrace :
    (SetSelection Item s).CreateWidgetTrace = s.CreateWidgetTrace ∨
    ((SetSelection Item s).CreateWidgetTrace
        = s.CreateWidgetTrace ++ [(s.CurrentPreview, FName.ofString Item)]) := by
  have h := SetStyle_CreateWidgetTrace { s with SetSelectionTrace := s.SetSelectionTrace ++ [Item] } Item
  simpa [SetSelection, OnSelectionChanged] using h

end frames

/-! ## `FString::Find` finds exactly the substrings -/

theorem Strnicmp_iff (Str SubStr : FString) :
    Strnicmp Str SubStr = true ↔ SubStr.map ToUpper <+: Str.map ToUpper := by
  induction SubStr generalizing Str with
  | nil => simp [Strnicmp]
  | cons f SubStr ih =>
    cases Str with
    | nil => simp [Strnicmp]
    | cons c Str =>
      simp only [Strnicmp, Bool.and_eq_true, decide_eq_true_eq, List.map_cons, ih]
      rw [List.cons_prefix_cons]
      constructor
      · rintro ⟨h1, h2⟩; exact ⟨h1.symm, h2⟩
      · rintro ⟨h1, h2⟩; exact ⟨h1.symm, h2⟩

theorem StristrFrom_isSome_iff (f : Char) (SubStr Str : FString) (i : Nat) :
    (StristrFrom f SubStr Str i).isSome = true ↔
      (f :: SubStr).map ToUpper <:+: Str.map ToUpper := by
  induction Str generalizing i with
  | nil => simp [StristrFrom]
  | cons c Str ih =>
    show _ ↔ (f :: SubStr).map ToUpper <:+: ToUpper c :: Str.map ToUpper
    have hstep : StristrFrom f SubStr (c :: Str) i
        = if (decide (ToUpper c = ToUpper f) && Strnicmp Str SubStr) = true then some i
          else StristrFrom f SubStr Str (i + 1) := rfl
    rw [List.infix_cons_iff, ← ih (i + 1), hstep]
    by_cases h : (decide (ToUpper c = ToUpper f) && Strnicmp Str SubStr) = true
    · rw [if_pos h]
      simp only [Option.isSome_some, true_iff]
      left
      simp only [Bool.and_eq_true, decide_eq_true_eq, Strnicmp_iff] at h
      rw [List.map_cons, List.cons_prefix_cons]
      exact ⟨h.1.symm, h.2⟩
    · rw [if_neg h]
      constructor
      · intro h'; exact Or.inr h'
      · rintro (h' | h')
        · exfalso
          apply h
          rw [List.map_cons, List.cons_prefix_cons] at h'
          simp only [Bool.and_eq_true, decide_eq_true_eq, Strnicmp_iff]
          exact ⟨h'.1.symm, h'.2⟩
        · exact h'

/-- For a search text that is not empty, `Find` returns an index exactly when the name
contains the text ignoring case. -/
theorem Find_nonneg_iff (Str SubStr : FString) (h : SubStr ≠ []) :
    Find Str SubStr ≥ 0 ↔ ContainsIgnoreCase SubStr Str := by
  cases SubStr with
  | nil => exact absurd rfl h
  | cons f SubStr =>
    unfold ContainsIgnoreCase
    rw [← StristrFrom_isSome_iff f SubStr Str 0]
    unfold Find Stristr
    simp only []
    cases StristrFrom f SubStr Str 0 with
    | none => simp
    | some i => simp

theorem ContainsIgnoreCase_nil (Name : FString) : ContainsIgnoreCase [] Name := by
  simp [ContainsIgnoreCase]

/-! ## `RefreshOptions` -/

/-- The list `RefreshOptions` computes, in the words of the specification. -/
theorem RefreshOptions_filter (SearchText : FText) (OptionList : List FString) :
    (if SearchText.isEmpty then OptionList
      else OptionList.filter fun Option =>
        SearchText.isEmpty || decide (Find Option SearchText ≥ 0))
      = OptionList.filter fun Option => decide (ContainsIgnoreCase SearchText Option) := by
  cases SearchText with
  | nil => simp [ContainsIgnoreCase_nil]
  | cons c t =>
    simp only [List.isEmpty_cons, Bool.false_eq_true, if_false, Bool.false_or]
    apply List.filter_congr
    intro o _
    rw [decide_eq_decide]
    exact Find_nonneg_iff o (c :: t) (by simp)

section frames

variable (s : SEditorStyleViewer W)

@[simp]
theorem RefreshOptions_CurrentPreview : (RefreshOptions s).CurrentPreview = s.CurrentPreview := by
  unfold RefreshOptions; simp only []; split <;> [skip; split] <;> simp

@[simp]
theorem RefreshOptions_PreviewOptions : (RefreshOptions s).PreviewOptions = s.PreviewOptions := by
  unfold RefreshOptions; simp only []; split <;> [skip; split] <;> simp

@[simp]
theorem RefreshOptions_SearchText : (RefreshOptions s).SearchText = s.SearchText := by
  unfold RefreshOptions; simp only []; split <;> [skip; split] <;> simp

@[simp]
theorem RefreshOptions_OptionList : (RefreshOptions s).OptionList = s.OptionList := by
  unfold RefreshOptions; simp only []; split <;> [skip; split] <;> simp

@[simp]
theorem RefreshOptions_Toolbar : (RefreshOptions s).Toolbar = s.Toolbar := by
  unfold RefreshOptions; simp only []; split <;> [skip; split] <;> simp

theorem RefreshOptions_FilteredOptionList :
    (RefreshOptions s).FilteredOptionList
      = s.OptionList.filter fun Option => decide (ContainsIgnoreCase s.SearchText Option) := by
  rw [← RefreshOptions_filter]
  unfold RefreshOptions; simp only []; split <;> [skip; split] <;> simp

/-- The entry that `RefreshOptions` selects again is the selected style itself. -/
@[simp]
theorem RefreshOptions_SelectedStyle : (RefreshOptions s).SelectedStyle = s.SelectedStyle := by
  unfold RefreshOptions; simp only []
  split
  · rfl
  · split
    · rename_i o ho
      have := List.find?_some ho
      simpa using this
    · rfl

/-- The calls `RefreshOptions` adds to the trace are of the current mode on the selected
style. -/
theorem RefreshOptions_CreateWidgetTrace :
    (RefreshOptions s).CreateWidgetTrace = s.CreateWidgetTrace ∨
    ((RefreshOptions s).CreateWidgetTrace
        = s.CreateWidgetTrace ++ [(s.CurrentPreview, s.SelectedStyle)]) := by
  unfold RefreshOptions; simp only []
  split
  · left; rfl
  · split
    · rename_i o ho
      have h1 := List.find?_some ho
      simp only [decide_eq_true_eq] at h1
      have h2 := SetSelection_CreateWidgetTrace
        { s with
          FilteredOptionList :=
            if s.SearchText.isEmpty then s.OptionList
            else s.OptionList.filter fun Option =>
              s.SearchText.isEmpty || decide (Find Option s.SearchText ≥ 0) } o
      rw [h1] at h2
      exact h2
    · left; rfl

end frames

/-! ## `SetPreview` -/

theorem Rejects_eq_not_Accepts (Option : FEditorStylePreviewOption W) (Name : FName) :
    Option.Rejects Name = !Option.Accepts Name := by
  unfold FEditorStylePreviewOption.Rejects FEditorStylePreviewOption.Accepts
  cases Option.CanUseStyle <;> simp

section frames

variable (Names : List FName) (InType : FName) (s : SEditorStyleViewer W)

@[simp]
theorem SetPreview_CurrentPreview : (SetPreview Names InType s).CurrentPreview = InType := by
  unfold SetPreview; simp only [RefreshPreview_CurrentPreview, RefreshOptions_CurrentPreview]
  split <;> [split; skip] <;> rfl

@[simp]
theorem SetPreview_PreviewOptions :
    (SetPreview Names InType s).PreviewOptions = s.PreviewOptions := by
  unfold SetPreview; simp only [RefreshPreview_PreviewOptions, RefreshOptions_PreviewOptions]
  split <;> [split; skip] <;> rfl

@[simp]
theorem SetPreview_SearchText : (SetPreview Names InType s).SearchText = s.SearchText := by
  unfold SetPreview; simp only [RefreshPreview_SearchText, RefreshOptions_SearchText]
  split <;> [split; skip] <;> rfl

@[simp]
theorem SetPreview_Toolbar : (SetPreview Names InType s).Toolbar = s.Toolbar := by
  unfold SetPreview; simp only [RefreshPreview_Toolbar, RefreshOptions_Toolbar]
  split <;> [split; skip] <;> rfl

theorem SetPreview_OptionList_of_registered (Option : FEditorStylePreviewOption W)
    (h : TMapFind s.PreviewOptions InType = some Option) :
    (SetPreview Names InType s).OptionList
      = (Names.filter fun Name => Option.Accepts Name).map FName.ToString := by
  unfold SetPreview
  simp only [RefreshPreview_OptionList, RefreshOptions_OptionList, h]
  have : (fun Name => !Option.Rejects Name) = fun Name => Option.Accepts Name := by
    funext Name; rw [Rejects_eq_not_Accepts]; simp
  split <;> simp [this]

theorem SetPreview_OptionList_of_not_registered (h : TMapFind s.PreviewOptions InType = none) :
    (SetPreview Names InType s).OptionList = s.OptionList := by
  unfold SetPreview
  simp only [RefreshPreview_OptionList, RefreshOptions_OptionList, h]

theorem SetPreview_SelectedStyle_of_registered (Option : FEditorStylePreviewOption W)
    (h : TMapFind s.PreviewOptions InType = some Option) :
    (SetPreview Names InType s).SelectedStyle
      = if Option.Accepts s.SelectedStyle then s.SelectedStyle else NAME_None := by
  unfold SetPreview
  simp only [RefreshPreview_SelectedStyle, RefreshOptions_SelectedStyle, h, Rejects_eq_not_Accepts]
  cases Option.Accepts s.SelectedStyle <;> simp

theorem SetPreview_SelectedStyle_of_not_registered (h : TMapFind s.PreviewOptions InType = none) :
    (SetPreview Names InType s).SelectedStyle = s.SelectedStyle := by
  unfold SetPreview
  simp only [RefreshPreview_SelectedStyle, RefreshOptions_SelectedStyle, h]

theorem SetPreview_FilteredOptionList :
    (SetPreview Names InType s).FilteredOptionList
      = (SetPreview Names InType s).OptionList.filter fun Option =>
          decide (ContainsIgnoreCase s.SearchText Option) := by
  unfold SetPreview
  simp only [RefreshPreview_FilteredOptionList, RefreshPreview_OptionList,
    RefreshOptions_OptionList, RefreshOptions_FilteredOptionList]
  split <;> [split; skip] <;> rfl

end frames

/-! ## The claims on single operations -/

/-- C1: after `SetPreview` of a registered mode, whatever the panel was before, the option
list is the names of the registry that the mode's predicate accepts, in the order of the
enumeration; it is the whole registry when no predicate is bound; and it holds each name
once when the enumeration does. -/
theorem SetPreview_rebuilds_OptionList (Names : List FName) (InType : FName)
    (s : SEditorStyleViewer W) (Option : FEditorStylePreviewOption W)
    (h : TMapFind s.PreviewOptions InType = some Option) :
    (SetPreview Names InType s).OptionList
        = (Names.filter fun Name => Option.Accepts Name).map FName.ToString ∧
    (Option.CanUseStyle = none →
      (SetPreview Names InType s).OptionList = Names.map FName.ToString) ∧
    (∀ CanUseStyle, Option.CanUseStyle = some CanUseStyle →
      (SetPreview Names InType s).OptionList
        = (Names.filter fun Name => CanUseStyle Name).map FName.ToString) ∧
    (Names.Nodup → (SetPreview Names InType s).OptionList.Nodup) := by
  have h1 := SetPreview_OptionList_of_registered Names InType s Option h
  refine ⟨h1, ?_, ?_, ?_⟩
  · intro hn
    rw [h1]
    simp [FEditorStylePreviewOption.Accepts, hn]
  · intro f hf
    rw [h1]
    simp [FEditorStylePreviewOption.Accepts, hf]
  · intro hnd
    rw [h1]
    exact (hnd.filter _).map FName.ToString_injective

theorem SetPreview_rebuilds_OptionList_witness :
    (SetPreview Sample.Names Sample.Key0 Sample.Panel).OptionList
      = ["ICON".toList, "MENU".toList] ∧
    (SetPreview Sample.Names Sample.Key1 Sample.Panel).OptionList
      = ["ICON".toList, "BORDER".toList, "MENU".toList] := by
  constructor
  · have h := (SetPreview_rebuilds_OptionList Sample.Names Sample.Key0 Sample.Panel
      (Sample.Options.get ⟨0, by decide⟩) rfl).1
    rw [h]; decide
  · have h := (SetPreview_rebuilds_OptionList Sample.Names Sample.Key1 Sample.Panel
      (Sample.Options.get ⟨1, by decide⟩) rfl).2.1 rfl
    rw [h]; decide

/-- C2: after `OnSearchTextChanged` the filtered list is the entries of the option list, in
its order, whose name contains the text as a substring ignoring case; for the empty text it
is the whole option list.  The option list is not changed. -/
theorem OnSearchTextChanged_filters (s : SEditorStyleViewer W) (ChangedText : FText) :
    (OnSearchTextChanged ChangedText s).FilteredOptionList
        = s.OptionList.filter (fun Name => decide (ContainsIgnoreCase ChangedText Name)) ∧
    (OnSearchTextChanged [] s).FilteredOptionList = s.OptionList ∧
    (OnSearchTextChanged ChangedText s).OptionList = s.OptionList ∧
    (OnSearchTextChanged ChangedText s).SearchText = ChangedText := by
  unfold OnSearchTextChanged
  refine ⟨?_, ?_, ?_, ?_⟩
  · rw [RefreshOptions_FilteredOptionList]
  · rw [RefreshOptions_FilteredOptionList]
    simp [ContainsIgnoreCase_nil]
  · simp
  · simp

/-- C4: after `SetPreview` of a registered mode the selected style is `NAME_None` when the
mode has a bound predicate that rejects the style selected before, and is the style selected
before when the mode has no bound predicate or its predicate accepts that style. -/
theorem SetPreview_clears_rejected_style (Names : List FName) (InType : FName)
    (s : SEditorStyleViewer W) (Option : FEditorStylePreviewOption W)
    (h : TMapFind s.PreviewOptions InType = some Option) :
    (∀ CanUseStyle, Option.CanUseStyle = some CanUseStyle →
      CanUseStyle s.SelectedStyle = false →
      (SetPreview Names InType s).SelectedStyle = NAME_None) ∧
    (Option.CanUseStyle = none →
      (SetPreview Names InType s).SelectedStyle = s.SelectedStyle) ∧
    (∀ CanUseStyle, Option.CanUseStyle = some CanUseStyle →
      CanUseStyle s.SelectedStyle = true →
      (SetPreview Names InType s).SelectedStyle = s.SelectedStyle) := by
  have h1 := SetPreview_SelectedStyle_of_registered Names InType s Option h
  refine ⟨?_, ?_, ?_⟩
  · intro f hf hrej
    rw [h1]
    simp [FEditorStylePreviewOption.Accepts, hf, hrej]
  · intro hn
    rw [h1]
    simp [FEditorStylePreviewOption.Accepts, hn]
  · intro f hf hacc
    rw [h1]
    simp [FEditorStylePreviewOption.Accepts, hf, hacc]

theorem SetPreview_clears_rejected_style_witness :
    (SetPreview Sample.Names Sample.Key0
        (OnSelectionChanged (some "Border".toList) Sample.Panel)).SelectedStyle = NAME_None ∧
    (SetPreview Sample.Names Sample.Key1
        (OnSelectionChanged (some "Border".toList) Sample.Panel)).SelectedStyle
      = FName.ofString "Border".toList ∧
    (SetPreview Sample.Names Sample.Key0
        (OnSelectionChanged (some "Icon".toList) Sample.Panel)).SelectedStyle
      = FName.ofString "Icon".toList :=
  ⟨(SetPreview_clears_rejected_style Sample.Names Sample.Key0
      (OnSelectionChanged (some "Border".toList) Sample.Panel)
      (Sample.Options.get ⟨0, by decide⟩) rfl).1 _ rfl (by decide),
   (SetPreview_clears_rejected_style Sample.Names Sample.Key1
      (OnSelectionChanged (some "Border".toList) Sample.Panel)
      (Sample.Options.get ⟨1, by decide⟩) rfl).2.1 rfl,
   (SetPreview_clears_rejected_style Sample.Names Sample.Key0
      (OnSelectionChanged (some "Icon".toList) Sample.Panel)
      (Sample.Options.get ⟨0, by decide⟩) rfl).2.2 _ rfl (by decide)⟩

/-- C5: when the filtered list is not empty, committing the search field with the enter key
calls `SetSelection` on the first entry of the filtered list, and afterwards the selected
style is the name of that entry. -/
theorem OnSearchTextCommitted_selects_first (s : SEditorStyleViewer W) (InText : FText)
    (h : s.FilteredOptionList ≠ []) :
    OnSearchTextCommitted InText ETextCommit.OnEnter s
        = SetSelection (s.FilteredOptionList.head h) s ∧
    (OnSearchTextCommitted InText ETextCommit.OnEnter s).SelectedStyle
        = FName.ofString (s.FilteredOptionList.head h) ∧
    (OnSearchTextCommitted InText ETextCommit.OnEnter s).SetSelectionTrace
        = s.SetSelectionTrace ++ [s.FilteredOptionList.head h] := by
  have h1 : OnSearchTextCommitted InText ETextCommit.OnEnter s
      = SetSelection (s.FilteredOptionList.head h) s := by
    rcases s with ⟨_, _, _, _, _, _, Filtered, _, _, _⟩
    cases Filtered with
    | nil => exact absurd rfl h
    | cons First Rest => rfl
  refine ⟨h1, ?_, ?_⟩
  · rw [h1]; simp
  · rw [h1]; simp

theorem OnSearchTextCommitted_selects_first_witness :
    (OnSearchTextCommitted [] ETextCommit.OnEnter
      (OnSearchTextChanged "EN".toList Sample.Panel)).SelectedStyle
      = FName.ofString "Menu".toList := by
  have h := (OnSearchTextCommitted_selects_first
    (OnSearchTextChanged "EN".toList Sample.Panel) [] (by decide)).2.1
  rw [h]; decide

/-- C6: after `RefreshPreview` the content box holds the widget that the render callback of
the current mode returns for the selected style, when that mode is registered and its
callback is bound, and that one call is made; when the mode is not registered or its
callback is not bound the content box holds the placeholder text and no call is made. -/
theorem RefreshPreview_shows (s : SEditorStyleViewer W) :
    (∀ Option CreateWidget, TMapFind s.PreviewOptions s.CurrentPreview = some Option →
      Option.CreateWidget = some CreateWidget →
      (RefreshPreview s).ContentPanel = SWidget.Preview (CreateWidget s.SelectedStyle) ∧
      (RefreshPreview s).CreateWidgetTrace
        = s.CreateWidgetTrace ++ [(s.CurrentPreview, s.SelectedStyle)]) ∧
    ((TMapFind s.PreviewOptions s.CurrentPreview = none ∨
        ∃ Option, TMapFind s.PreviewOptions s.CurrentPreview = some Option ∧
          Option.CreateWidget = none) →
      (RefreshPreview s).ContentPanel = SWidget.STextBlock Error_NoWidget ∧
      (RefreshPreview s).CreateWidgetTrace = s.CreateWidgetTrace) := by
  constructor
  · intro Option CreateWidget hfind hbound
    unfold RefreshPreview
    simp [hfind, hbound]
  · rintro (hfind | ⟨Option, hfind, hunbound⟩)
    · unfold RefreshPreview
      simp [hfind]
    · unfold RefreshPreview
      simp [hfind, hunbound]

theorem RefreshPreview_shows_witness :
    (RefreshPreview (OnSelectionChanged (some "Icon".toList) Sample.Panel)).ContentPanel
      = SWidget.Preview "ICON".toList ∧
    (RefreshPreview (SetPreview Sample.Names Sample.Key2 Sample.Panel)).ContentPanel
      = SWidget.STextBlock "Not widget".toList ∧
    (RefreshPreview (SetPreview Sample.Names NAME_None Sample.Panel)).CreateWidgetTrace
      = (SetPreview Sample.Names NAME_None Sample.Panel).CreateWidgetTrace :=
  ⟨((RefreshPreview_shows (OnSelectionChanged (some "Icon".toList) Sample.Panel)).1
      (Sample.Options.get ⟨0, by decide⟩) _ rfl rfl).1,
   ((RefreshPreview_shows (SetPreview Sample.Names Sample.Key2 Sample.Panel)).2
      (Or.inr ⟨Sample.Options.get ⟨2, by decide⟩, rfl, rfl⟩)).1,
   ((RefreshPreview_shows (SetPreview Sample.Names NAME_None Sample.Panel)).2
      (Or.inl rfl)).2⟩

/-- C7: `OnSelectionChanged` on a list entry sets the selected style to the name of the
entry and renders the content box again for that name: when the current mode is registered
and its render callback is bound, the content box holds the widget the callback returns for
the name of the entry and that one call is made, otherwise it holds the placeholder text and
no call is made; the current mode, the search text, the option list and the filtered list
stay as they were; the null selection sets the selected style to `NAME_None` and renders
the content box for `NAME_None`. -/
theorem OnSelectionChanged_sets_style (s : SEditorStyleViewer W) (Selection : FString) :
    (OnSelectionChanged (some Selection) s).SelectedStyle = FName.ofString Selection ∧
    OnSelectionChanged (some Selection) s
        = RefreshPreview { s with SelectedStyle := FName.ofString Selection } ∧
    (∀ Option CreateWidget, TMapFind s.PreviewOptions s.CurrentPreview = some Option →
      Option.CreateWidget = some CreateWidget →
      (OnSelectionChanged (some Selection) s).ContentPanel
        = SWidget.Preview (CreateWidget (FName.ofString Selection)) ∧
      (OnSelectionChanged (some Selection) s).CreateWidgetTrace
        = s.CreateWidgetTrace ++ [(s.CurrentPreview, FName.ofString Selection)]) ∧
    ((TMapFind s.PreviewOptions s.CurrentPreview = none ∨
        ∃ Option, TMapFind s.PreviewOptions s.CurrentPreview = some Option ∧
          Option.CreateWidget = none) →
      (OnSelectionChanged (some Selection) s).ContentPanel = SWidget.STextBlock Error_NoWidget ∧
      (OnSelectionChanged (some Selection) s).CreateWidgetTrace = s.CreateWidgetTrace) ∧
    (OnSelectionChanged (some Selection) s).CurrentPreview = s.CurrentPreview ∧
    (OnSelectionChanged (some Selection) s).SearchText = s.SearchText ∧
    (OnSelectionChanged (some Selection) s).OptionList = s.OptionList ∧
    (OnSelectionChanged (some Selection) s).FilteredOptionList = s.FilteredOptionList ∧
    (OnSelectionChanged (some Selection) s).PreviewOptions = s.PreviewOptions ∧
    (OnSelectionChanged (some Selection) s).SetSelectionTrace = s.SetSelectionTrace ∧
    (OnSelectionChanged none s).SelectedStyle = NAME_None ∧
    (∀ Option CreateWidget, TMapFind s.PreviewOptions s.CurrentPreview = some Option →
      Option.CreateWidget = some CreateWidget →
      (OnSelectionChanged none s).ContentPanel = SWidget.Preview (CreateWidget NAME_None)) := by
  refine ⟨?_, rfl, ?_, ?_, ?_, ?_, ?_, ?_, ?_, ?_, ?_, ?_⟩
  · simp [OnSelectionChanged]
  · intro Option CreateWidget hfind hbound
    simp [OnSelectionChanged, SetStyle, RefreshPreview, hfind, hbound]
  · rintro (hfind | ⟨Option, hfind, hunbound⟩)
    · simp [OnSelectionChanged, SetStyle, RefreshPreview, hfind]
    · simp [OnSelectionChanged, SetStyle, RefreshPreview, hfind, hunbound]
  · simp [OnSelectionChanged]
  · simp [OnSelectionChanged]
  · simp [OnSelectionChanged]
  · simp [OnSelectionChanged]
  · simp [OnSelectionChanged]
  · simp [OnSelectionChanged]
  · simp [OnSelectionChanged, FName.ofString_nil]
  · intro Option CreateWidget hfind hbound
    simp [OnSelectionChanged, SetStyle, RefreshPreview, hfind, hbound, FName.ofString_nil]

theorem OnSelectionChanged_sets_style_witness :
    (OnSelectionChanged (some "Menu".toList) Sample.Panel).ContentPanel
      = SWidget.Preview "MENU".toList ∧
    (OnSelectionChanged (some "Menu".toList) Sample.Panel).CreateWidgetTrace
      = Sample.Panel.CreateWidgetTrace ++ [(Sample.Key0, FName.ofString "Menu".toList)] ∧
    (OnSelectionChanged (some "Menu".toList)
        (SetPreview Sample.Names Sample.Key2 Sample.Panel)).ContentPanel
      = SWidget.STextBlock "Not widget".toList ∧
    (OnSelectionChanged (some "Menu".toList)
        (SetPreview Sample.Names Sample.Key2 Sample.Panel)).CreateWidgetTrace
      = (SetPreview Sample.Names Sample.Key2 Sample.Panel).CreateWidgetTrace :=
  ⟨((OnSelectionChanged_sets_style Sample.Panel "Menu".toList).2.2.1
      (Sample.Options.get ⟨0, by decide⟩) _ rfl rfl).1,
   ((OnSelectionChanged_sets_style Sample.Panel "Menu".toList).2.2.1
      (Sample.Options.get ⟨0, by decide⟩) _ rfl rfl).2,
   ((OnSelectionChanged_sets_style (SetPreview Sample.Names Sample.Key2 Sample.Panel)
      "Menu".toList).2.2.2.1 (Or.inr ⟨Sample.Options.get ⟨2, by decide⟩, rfl, rfl⟩)).1,
   ((OnSelectionChanged_sets_style (SetPreview Sample.Names Sample.Key2 Sample.Panel)
      "Menu".toList).2.2.2.1 (Or.inr ⟨Sample.Options.get ⟨2, by decide⟩, rfl, rfl⟩)).2⟩

/-- C10: `OnSearchTextCommitted` returns the panel as it was when the commit is not by the
enter key or the filtered list is empty; it calls `SetSelection` exactly when the commit is
by the enter key and the filtered list is not empty. -/
theorem OnSearchTextCommitted_frame (s : SEditorStyleViewer W) (InText : FText)
    (InCommitType : ETextCommit) :
    ((InCommitType ≠ ETextCommit.OnEnter ∨ s.FilteredOptionList = []) →
      OnSearchTextCommitted InText InCommitType s = s) ∧
    ((OnSearchTextCommitted InText InCommitType s).SetSelectionTrace ≠ s.SetSelectionTrace ↔
      InCommitType = ETextCommit.OnEnter ∧ s.FilteredOptionList ≠ []) := by
  unfold OnSearchTextCommitted
  cases InCommitType <;> cases hf : s.FilteredOptionList <;> simp

theorem OnSearchTextCommitted_frame_witness :
    OnSearchTextCommitted "EN".toList ETextCommit.OnUserMovedFocus
        (OnSearchTextChanged "EN".toList Sample.Panel)
      = OnSearchTextChanged "EN".toList Sample.Panel ∧
    OnSearchTextCommitted "X".toList ETextCommit.OnEnter
        (OnSearchTextChanged "X".toList Sample.Panel)
      = OnSearchTextChanged "X".toList Sample.Panel :=
  ⟨(OnSearchTextCommitted_frame (OnSearchTextChanged "EN".toList Sample.Panel) "EN".toList
      ETextCommit.OnUserMovedFocus).1 (Or.inl (by decide)),
   (OnSearchTextCommitted_frame (OnSearchTextChanged "X".toList Sample.Panel) "X".toList
      ETextCommit.OnEnter).1 (Or.inr (by decide))⟩

/-! ## The keys of `Construct` -/

theorem digitChar_toNat (k : Nat) (h : k < 10) :
    (Nat.digitChar k).toNat - 48 = k ∧ 48 ≤ (Nat.digitChar k).toNat ∧
      (Nat.digitChar k).toNat ≤ 57 := by
  interval_cases k <;> decide

theorem toDigitsCore_value (fuel n : Nat) (ds : List Char) (h : n < fuel) :
    List.foldl (fun a c => 10 * a + (c.toNat - 48)) 0 (Nat.toDigitsCore 10 fuel n ds)
      = List.foldl (fun a c => 10 * a + (c.toNat - 48)) n ds := by
  induction fuel generalizing n ds with
  | zero => omega
  | succ fuel ih =>
    have hd := (digitChar_toNat (n % 10) (Nat.mod_lt _ (by decide))).1
    simp only [Nat.toDigitsCore]
    split_ifs with h0
    · have hn : n % 10 = n := Nat.mod_eq_of_lt (by omega)
      rw [hn] at hd
      simp only [List.foldl_cons, hn, hd, Nat.mul_zero, Nat.zero_add]
    · rw [ih (n / 10) _ (by omega)]
      simp only [List.foldl_cons, hd]
      congr 1
      omega

theorem toDigits_injective : Function.Injective (Nat.toDigits 10) := by
  intro i j h
  have hi := toDigitsCore_value (i + 1) i [] (by omega)
  have hj := toDigitsCore_value (j + 1) j [] (by omega)
  simp only [List.foldl_nil] at hi hj
  unfold Nat.toDigits at h
  rw [← hi, ← hj, h]

theorem toDigitsCore_mem (fuel n : Nat) (ds : List Char) (c : Char)
    (h : c ∈ Nat.toDigitsCore 10 fuel n ds) : c ∈ ds ∨ (48 ≤ c.toNat ∧ c.toNat ≤ 57) := by
  induction fuel generalizing n ds with
  | zero => left; simpa [Nat.toDigitsCore] using h
  | succ fuel ih =>
    have hd := (digitChar_toNat (n % 10) (Nat.mod_lt _ (by decide))).2
    simp only [Nat.toDigitsCore] at h
    split_ifs at h with h0
    · rcases List.mem_cons.1 h with h | h
      · right; rw [h]; exact hd
      · left; exact h
    · rcases ih _ _ h with h | h
      · rcases List.mem_cons.1 h with h | h
        · right; rw [h]; exact hd
        · left; exact h
      · right; exact h

theorem toDigits_mem (n : Nat) (c : Char) (h : c ∈ Nat.toDigits 10 n) :
    48 ≤ c.toNat ∧ c.toNat ≤ 57 := by
  rcases toDigitsCore_mem (n + 1) n [] c h with h | h
  · simp at h
  · exact h

theorem map_ToUpper_toDigits (n : Nat) : (Nat.toDigits 10 n).map ToUpper = Nat.toDigits 10 n := by
  conv_rhs => rw [← List.map_id (Nat.toDigits 10 n)]
  apply List.map_congr_left
  intro c hc
  have := toDigits_mem n c hc
  exact ToUpper_of_not_lower c (by omega)

theorem underscore_not_mem_toDigits (n : Nat) : '_' ∉ Nat.toDigits 10 n := by
  intro h
  have := toDigits_mem n '_' h
  revert this
  decide

theorem append_sep_inj (x : Char) (a b a' b' : List Char) (ha : x ∉ a) (ha' : x ∉ a')
    (h : a ++ x :: b = a' ++ x :: b') : a = a' := by
  induction a generalizing a' with
  | nil =>
    cases a' with
    | nil => rfl
    | cons c a' =>
      simp only [List.nil_append, List.cons_append, List.cons.injEq] at h
      exact absurd (h.1 ▸ List.mem_cons_self _ _) ha'
  | cons c a ih =>
    cases a' with
    | nil =>
      simp only [List.nil_append, List.cons_append, List.cons.injEq] at h
      exact absurd (h.1 ▸ List.mem_cons_self _ _) ha
    | cons c' a' =>
      simp only [List.cons_append, List.cons.injEq] at h
      rw [h.1, ih a' (fun hm => ha (List.mem_cons_of_mem _ hm))
        (fun hm => ha' (List.mem_cons_of_mem _ hm)) h.2]

/-- The key of an option tells its index, whatever the titles. -/
theorem key_injective (i j : Nat) (t u : FString)
    (h : FName.ofString (Printf_d_s i t) = FName.ofString (Printf_d_s j u)) : i = j := by
  unfold FName.ofString Printf_d_s at h
  rw [dif_neg (by simp), dif_neg (by simp)] at h
  have h1 := congrArg FName.Text h
  simp only [List.map_append, List.map_cons, map_ToUpper_toDigits] at h1
  have hu : ToUpper '_' = '_' := by decide
  rw [hu] at h1
  exact toDigits_injective
    (append_sep_inj '_' _ _ _ _ (underscore_not_mem_toDigits i) (underscore_not_mem_toDigits j) h1)

theorem TMapAdd_of_not_mem {V : Type} (m : List (FName × V)) (Key : FName) (Value : V)
    (h : ∀ p ∈ m, p.1 ≠ Key) : TMapAdd m Key Value = m ++ [(Key, Value)] := by
  induction m with
  | nil => rfl
  | cons p m ih =>
    obtain ⟨k, v⟩ := p
    have hk : k ≠ Key := h (k, v) (List.mem_cons_self _ _)
    simp only [TMapAdd, if_neg hk, List.cons_append]
    rw [ih (fun p hp => h p (List.mem_cons_of_mem _ hp))]

theorem AddPreviewOptions_eq (Index : Nat) (InPreviewOptions : List (FEditorStylePreviewOption W))
    (m : List (FName × FEditorStylePreviewOption W))
    (hm : ∀ p ∈ m, ∃ i t, i < Index ∧ p.1 = FName.ofString (Printf_d_s i t)) :
    AddPreviewOptions Index InPreviewOptions m
      = m ++ (InPreviewOptions.enumFrom Index).map KeyedOption := by
  induction InPreviewOptions generalizing Index m with
  | nil => simp [AddPreviewOptions]
  | cons o rest ih =>
    have hnew : ∀ p ∈ m, p.1 ≠ FName.ofString (Printf_d_s Index o.Title) := by
      intro p hp heq
      obtain ⟨i, t, hi, hk⟩ := hm p hp
      rw [hk] at heq
      have := key_injective _ _ _ _ heq
      omega
    simp only [AddPreviewOptions, TMapAdd_of_not_mem m _ o hnew]
    rw [ih]
    · simp [List.enumFrom_cons, KeyedOption]
    · intro p hp
      rcases List.mem_append.1 hp with hp | hp
      · obtain ⟨i, t, hi, hk⟩ := hm p hp
        exact ⟨i, t, by omega, hk⟩
      · simp only [List.mem_singleton] at hp
        exact ⟨Index, o.Title, by omega, by rw [hp]⟩

theorem Construct_PreviewOptions (Names : List FName)
    (InPreviewOptions : List (FEditorStylePreviewOption W)) :
    (Construct Names InPreviewOptions).PreviewOptions = AddPreviewOptions 0 InPreviewOptions [] := by
  unfold Construct
  simp only []
  split <;> simp

theorem Construct_Toolbar (Names : List FName)
    (InPreviewOptions : List (FEditorStylePreviewOption W)) :
    (Construct Names InPreviewOptions).Toolbar
      = CreateToolbarSlots (AddPreviewOptions 0 InPreviewOptions []) := by
  unfold Construct
  simp only []
  split <;> simp [CreateToolbar]

theorem CreateToolbarSlots_eq_flatMap (m : List (FName × FEditorStylePreviewOption W)) :
    CreateToolbarSlots m
      = m.flatMap fun Pair =>
          (if Pair.2.CreateWidget.isSome then [] else [ToolbarSlot.STextBlock Error_NotBound])
            ++ [ModeButton Pair] := by
  induction m with
  | nil => rfl
  | cons p m ih =>
    obtain ⟨k, v⟩ := p
    simp only [CreateToolbarSlots, List.flatMap_cons, ih, ModeButton, List.append_assoc,
      List.singleton_append]

theorem CreateToolbarSlots_buttons (m : List (FName × FEditorStylePreviewOption W)) :
    (CreateToolbarSlots m).filter ToolbarSlot.IsButton = m.map ModeButton := by
  induction m with
  | nil => rfl
  | cons p m ih =>
    obtain ⟨k, v⟩ := p
    simp only [CreateToolbarSlots, List.filter_append, List.map_cons]
    cases v.CreateWidget <;>
      simp [List.filter_cons, ToolbarSlot.IsButton, ih, ModeButton]

theorem KeyedOption_keys_nodup (Index : Nat)
    (InPreviewOptions : List (FEditorStylePreviewOption W)) :
    (((InPreviewOptions.enumFrom Index).map KeyedOption).map Prod.fst).Nodup := by
  rw [List.map_map]
  have hfst : ((InPreviewOptions.enumFrom Index).map Prod.fst).Nodup := by
    rw [List.enumFrom_map_fst]
    exact List.nodup_range' _ _
  apply List.Nodup.map_on _ (List.Nodup.of_map _ hfst)
  intro x hx y hy hxy
  apply List.inj_on_of_nodup_map hfst hx hy
  exact key_injective _ _ _ _ hxy

/-- C8: `Construct` registers every option of its list, in order, each under the key
`<index>_<title>`; these keys tell the index whatever the titles, so they are distinct and
as many pairs are registered as options were given; the toolbar is the one `CreateToolbar`
builds from them, its buttons are one per option, in order, each bound to the key of its
option; and the slots of an option are its button, with the "Not bound" text in front when
its render callback is not bound. -/
theorem Construct_registers_each_option (Names : List FName)
    (InPreviewOptions : List (FEditorStylePreviewOption W)) :
    (Construct Names InPreviewOptions).PreviewOptions = InPreviewOptions.enum.map KeyedOption ∧
    (∀ i j t u, FName.ofString (Printf_d_s i t) = FName.ofString (Printf_d_s j u) → i = j) ∧
    ((Construct Names InPreviewOptions).PreviewOptions.map Prod.fst).Nodup ∧
    (Construct Names InPreviewOptions).PreviewOptions.length = InPreviewOptions.length ∧
    (Construct Names InPreviewOptions).Toolbar = CreateToolbar (Construct Names InPreviewOptions) ∧
    (Construct Names InPreviewOptions).Toolbar.filter ToolbarSlot.IsButton
      = (InPreviewOptions.enum.map KeyedOption).map ModeButton ∧
    (Construct Names InPreviewOptions).Toolbar
      = (InPreviewOptions.enum.map KeyedOption).flatMap fun Pair =>
          (if Pair.2.CreateWidget.isSome then [] else [ToolbarSlot.STextBlock Error_NotBound])
            ++ [ModeButton Pair] := by
  have hreg : AddPreviewOptions 0 InPreviewOptions []
      = InPreviewOptions.enum.map KeyedOption := by
    rw [AddPreviewOptions_eq 0 InPreviewOptions [] (by simp)]
    rfl
  have hp := Construct_PreviewOptions Names InPreviewOptions
  have ht := Construct_Toolbar Names InPreviewOptions
  rw [hreg] at hp ht
  refine ⟨hp, key_injective, ?_, ?_, ?_, ?_, ?_⟩
  · rw [hp]; exact KeyedOption_keys_nodup 0 InPreviewOptions
  · rw [hp]; simp [List.enum]
  · rw [ht, CreateToolbar, hp]
  · rw [ht, CreateToolbarSlots_buttons]
  · rw [ht, CreateToolbarSlots_eq_flatMap]

theorem Construct_registers_each_option_witness :
    (Construct Sample.Names Sample.Options).PreviewOptions.map Prod.fst
      = [Sample.Key0, Sample.Key1, Sample.Key2] ∧
    (Construct Sample.Names Sample.Options).Toolbar
      = [ToolbarSlot.SButton "Image".toList "Image".toList Sample.Key0,
         ToolbarSlot.SButton "Color".toList "Solid color".toList Sample.Key1,
         ToolbarSlot.STextBlock "Not bound".toList,
         ToolbarSlot.SButton "Image".toList "Image".toList Sample.Key2] := by
  have h := Construct_registers_each_option Sample.Names Sample.Options
  constructor
  · rw [h.1]; decide
  · rw [h.2.2.2.2.2.2]; decide

/-! ## Invariants of the panel -/

theorem PassesMode_congr (s t : SEditorStyleViewer W) (h : t.PreviewOptions = s.PreviewOptions)
    (Mode Name : FName) : PassesMode t Mode Name = PassesMode s Mode Name := by
  unfold PassesMode; rw [h]

theorem ListsConsistent_SetPreview (Names : List FName) (InType : FName)
    (s : SEditorStyleViewer W) : ListsConsistent (SetPreview Names InType s) := by
  constructor
  · rw [SetPreview_FilteredOptionList, SetPreview_SearchText]
  · intro Name hName
    rw [PassesMode_congr s _ (SetPreview_PreviewOptions Names InType s), SetPreview_CurrentPreview]
    unfold PassesMode
    cases hfind : TMapFind s.PreviewOptions InType with
    | none => rfl
    | some Option =>
      rw [SetPreview_OptionList_of_registered Names InType s Option hfind] at hName
      obtain ⟨n, hn, rfl⟩ := List.mem_map.1 hName
      rw [FName.ofString_ToString]
      exact (List.mem_filter.1 hn).2

theorem ListsConsistent_RefreshOptions (s : SEditorStyleViewer W)
    (h : ∀ Name ∈ s.OptionList, PassesMode s s.CurrentPreview (FName.ofString Name) = true) :
    ListsConsistent (RefreshOptions s) := by
  constructor
  · rw [RefreshOptions_FilteredOptionList, RefreshOptions_OptionList, RefreshOptions_SearchText]
  · intro Name hName
    rw [PassesMode_congr s _ (RefreshOptions_PreviewOptions s), RefreshOptions_CurrentPreview]
    rw [RefreshOptions_OptionList] at hName
    exact h Name hName

theorem ListsConsistent_SetStyle (Style : FString) (s : SEditorStyleViewer W)
    (h : ListsConsistent s) : ListsConsistent (SetStyle Style s) := by
  constructor
  · rw [SetStyle_FilteredOptionList, SetStyle_OptionList, SetStyle_SearchText]
    exact h.1
  · intro Name hName
    rw [PassesMode_congr s _ (SetStyle_PreviewOptions s Style), SetStyle_CurrentPreview]
    rw [SetStyle_OptionList] at hName
    exact h.2 Name hName

theorem ListsConsistent_SetSelection (Item : FString) (s : SEditorStyleViewer W)
    (h : ListsConsistent s) : ListsConsistent (SetSelection Item s) :=
  ListsConsistent_SetStyle Item { s with SetSelectionTrace := s.SetSelectionTrace ++ [Item] } h

theorem ListsConsistent_handle (Names : List FName) (e : Event) (s : SEditorStyleViewer W)
    (h : ListsConsistent s) : ListsConsistent (e.handle Names s) := by
  cases e with
  | ToolbarClick Name => exact ListsConsistent_SetPreview Names Name s
  | SearchTextChanged ChangedText =>
    exact ListsConsistent_RefreshOptions { s with SearchText := ChangedText } h.2
  | SearchTextCommitted InText InCommitType =>
    show ListsConsistent (OnSearchTextCommitted InText InCommitType s)
    unfold OnSearchTextCommitted
    split
    · exact ListsConsistent_SetSelection _ s h
    · exact h
  | SelectionChanged Selection =>
    cases Selection with
    | none => exact ListsConsistent_SetStyle [] s h
    | some Item => exact ListsConsistent_SetStyle Item s h

theorem ListsConsistent_Construct (Names : List FName)
    (InPreviewOptions : List (FEditorStylePreviewOption W)) :
    ListsConsistent (Construct Names InPreviewOptions) := by
  unfold Construct
  simp only []
  split
  · exact ListsConsistent_SetPreview _ _ _
  · exact ⟨rfl, fun Name hName => absurd hName (List.not_mem_nil _)⟩

theorem ListsConsistent_of_Reachable (Allowed : SEditorStyleViewer W → Event → Prop)
    (Names : List FName) (InPreviewOptions : List (FEditorStylePreviewOption W))
    (s : SEditorStyleViewer W) (h : Reachable Allowed Names InPreviewOptions s) :
    ListsConsistent s := by
  induction h with
  | construct => exact ListsConsistent_Construct Names InPreviewOptions
  | event s e _ _ ih => exact ListsConsistent_handle Names e s ih

/-- C3: in every panel reached from construction by toolbar clicks, search edits, search
commits and list selections, the filtered list is the entries of the option list that
contain the search text ignoring case (all of them for the empty text), and every entry of
the option list satisfies the predicate of the current mode when it has one; and a click on
a mode button keeps the search text and leaves both true for the new mode. -/
theorem Reachable_lists_consistent (Names : List FName)
    (InPreviewOptions : List (FEditorStylePreviewOption W)) (s : SEditorStyleViewer W)
    (h : Reachable Event.FromWidgets Names InPreviewOptions s) :
    s.FilteredOptionList
        = s.OptionList.filter (fun Name => decide (ContainsIgnoreCase s.SearchText Name)) ∧
    (s.SearchText = [] → s.FilteredOptionList = s.OptionList) ∧
    (∀ Option CanUseStyle, TMapFind s.PreviewOptions s.CurrentPreview = some Option →
      Option.CanUseStyle = some CanUseStyle →
      ∀ Name ∈ s.OptionList, CanUseStyle (FName.ofString Name) = true) ∧
    (∀ Text ToolTipText Name, ToolbarSlot.SButton Text ToolTipText Name ∈ s.Toolbar →
      (OnPreviewWidgetSelected Names Name s).SearchText = s.SearchText ∧
      (OnPreviewWidgetSelected Names Name s).CurrentPreview = Name ∧
      (OnPreviewWidgetSelected Names Name s).FilteredOptionList
        = (OnPreviewWidgetSelected Names Name s).OptionList.filter
            (fun Name => decide (ContainsIgnoreCase s.SearchText Name)) ∧
      ∀ Option CanUseStyle, TMapFind s.PreviewOptions Name = some Option →
        Option.CanUseStyle = some CanUseStyle →
        ∀ Entry ∈ (OnPreviewWidgetSelected Names Name s).OptionList,
          CanUseStyle (FName.ofString Entry) = true) := by
  have hs := ListsConsistent_of_Reachable _ Names InPreviewOptions s h
  refine ⟨hs.1, ?_, ?_, ?_⟩
  · intro ht
    rw [hs.1, ht]
    simp [ContainsIgnoreCase_nil]
  · intro Option CanUseStyle hfind hbound Name hName
    have := hs.2 Name hName
    simpa [PassesMode, hfind, FEditorStylePreviewOption.Accepts, hbound] using this
  · intro Text ToolTipText Name _
    have hn := ListsConsistent_SetPreview Names Name s
    refine ⟨SetPreview_SearchText Names Name s, SetPreview_CurrentPreview Names Name s, ?_, ?_⟩
    · have := hn.1
      rw [SetPreview_SearchText] at this
      exact this
    · intro Option CanUseStyle hfind hbound Entry hEntry
      have := hn.2 Entry hEntry
      rw [PassesMode_congr s _ (SetPreview_PreviewOptions Names Name s),
        SetPreview_CurrentPreview] at this
      simpa [PassesMode, hfind, FEditorStylePreviewOption.Accepts, hbound] using this

theorem Reachable_lists_consistent_witness :
    Sample.Switched.FilteredOptionList
      = Sample.Switched.OptionList.filter
          (fun Name => decide (ContainsIgnoreCase Sample.Switched.SearchText Name)) :=
  (Reachable_lists_consistent Sample.Names Sample.Options Sample.Switched
    (Reachable.event _ _ (Reachable.event _ _ Reachable.construct trivial)
      ⟨"Color".toList, "Solid color".toList, by decide⟩)).1

theorem RefreshPreview_trace_mem (s : SEditorStyleViewer W) (Call : FName × FName)
    (h : Call ∈ (RefreshPreview s).CreateWidgetTrace) :
    Call ∈ s.CreateWidgetTrace ∨ Call = (s.CurrentPreview, s.SelectedStyle) := by
  rcases RefreshPreview_CreateWidgetTrace s with h1 | h1
  · rw [h1] at h; exact Or.inl h
  · rw [h1] at h; simpa using h

theorem RefreshOptions_trace_mem (s : SEditorStyleViewer W) (Call : FName × FName)
    (h : Call ∈ (RefreshOptions s).CreateWidgetTrace) :
    Call ∈ s.CreateWidgetTrace ∨ Call = (s.CurrentPreview, s.SelectedStyle) := by
  rcases RefreshOptions_CreateWidgetTrace s with h1 | h1
  · rw [h1] at h; exact Or.inl h
  · rw [h1] at h; simpa using h

theorem SetStyle_trace_mem (Style : FString) (s : SEditorStyleViewer W) (Call : FName × FName)
    (h : Call ∈ (SetStyle Style s).CreateWidgetTrace) :
    Call ∈ s.CreateWidgetTrace ∨ Call = (s.CurrentPreview, FName.ofString Style) := by
  rcases SetStyle_CreateWidgetTrace s Style with h1 | h1
  · rw [h1] at h; exact Or.inl h
  · rw [h1] at h; simpa using h

theorem SetSelection_trace_mem (Item : FString) (s : SEditorStyleViewer W) (Call : FName × FName)
    (h : Call ∈ (SetSelection Item s).CreateWidgetTrace) :
    Call ∈ s.CreateWidgetTrace ∨ Call = (s.CurrentPreview, FName.ofString Item) := by
  rcases SetSelection_CreateWidgetTrace s Item with h1 | h1
  · rw [h1] at h; exact Or.inl h
  · rw [h1] at h; simpa using h

theorem RefreshBoth_trace_mem (s : SEditorStyleViewer W) (Call : FName × FName)
    (h : Call ∈ (RefreshPreview (RefreshOptions s)).CreateWidgetTrace) :
    Call ∈ s.CreateWidgetTrace ∨ Call = (s.CurrentPreview, s.SelectedStyle) := by
  rcases RefreshPreview_trace_mem _ Call h with h1 | h1
  · exact RefreshOptions_trace_mem s Call h1
  · right; simpa using h1

theorem SetPreview_eq_refresh (Names : List FName) (InType : FName) (s : SEditorStyleViewer W) :
    ∃ s2 : SEditorStyleViewer W, SetPreview Names InType s = RefreshPreview (RefreshOptions s2) ∧
      s2.CreateWidgetTrace = s.CreateWidgetTrace ∧ s2.CurrentPreview = InType := by
  unfold SetPreview
  refine ⟨_, rfl, ?_, ?_⟩
  · split
    · dsimp only
      split <;> rfl
    · rfl
  · split
    · dsimp only
      split <;> rfl
    · rfl

theorem SetPreview_trace_mem (Names : List FName) (InType : FName) (s : SEditorStyleViewer W)
    (Call : FName × FName) (h : Call ∈ (SetPreview Names InType s).CreateWidgetTrace) :
    Call ∈ s.CreateWidgetTrace ∨ Call = (InType, (SetPreview Names InType s).SelectedStyle) := by
  obtain ⟨s2, heq, htrace, hcur⟩ := SetPreview_eq_refresh Names InType s
  have hsel : (SetPreview Names InType s).SelectedStyle = s2.SelectedStyle := by
    rw [heq]; simp
  rw [heq] at h
  have h1 := RefreshBoth_trace_mem s2 Call h
  rw [htrace, hcur, ← hsel] at h1
  exact h1

/-- The step of `SelectionConsistent`: the registered options are kept, the selected style
passes, and the trace grows only by calls on the selected style. -/
theorem SelectionConsistent_step (s t : SEditorStyleViewer W)
    (hopt : t.PreviewOptions = s.PreviewOptions) (hs : SelectionConsistent s)
    (hsel : t.SelectedStyle = NAME_None ∨ PassesMode s t.CurrentPreview t.SelectedStyle = true)
    (htrace : ∀ Call ∈ t.CreateWidgetTrace,
      Call ∈ s.CreateWidgetTrace ∨ Call = (t.CurrentPreview, t.SelectedStyle)) :
    SelectionConsistent t := by
  constructor
  · rw [PassesMode_congr s t hopt]; exact hsel
  · intro Call hCall
    rw [PassesMode_congr s t hopt]
    rcases htrace Call hCall with h | h
    · exact hs.2 Call h
    · rw [h]; exact hsel

theorem SelectionConsistent_SetPreview (Names : List FName) (InType : FName)
    (s : SEditorStyleViewer W) (hs : SelectionConsistent s) :
    SelectionConsistent (SetPreview Names InType s) := by
  apply SelectionConsistent_step s _ (SetPreview_PreviewOptions Names InType s) hs
  · rw [SetPreview_CurrentPreview]
    unfold PassesMode
    cases hfind : TMapFind s.PreviewOptions InType with
    | none => right; rfl
    | some Option =>
      rw [SetPreview_SelectedStyle_of_registered Names InType s Option hfind]
      cases hacc : Option.Accepts s.SelectedStyle with
      | false => left; simp
      | true => right; simpa using hacc
  · intro Call hCall
    rw [SetPreview_CurrentPreview]
    exact SetPreview_trace_mem Names InType s Call hCall

theorem SelectionConsistent_RefreshOptions (s : SEditorStyleViewer W)
    (hs : SelectionConsistent s) : SelectionConsistent (RefreshOptions s) := by
  apply SelectionConsistent_step s _ (RefreshOptions_PreviewOptions s) hs
  · rw [RefreshOptions_CurrentPreview, RefreshOptions_SelectedStyle]; exact hs.1
  · intro Call hCall
    rw [RefreshOptions_CurrentPreview, RefreshOptions_SelectedStyle]
    exact RefreshOptions_trace_mem s Call hCall

theorem SelectionConsistent_SetStyle (Style : FString) (s : SEditorStyleViewer W)
    (hs : SelectionConsistent s)
    (hpass : FName.ofString Style = NAME_None ∨
      PassesMode s s.CurrentPreview (FName.ofString Style) = true) :
    SelectionConsistent (SetStyle Style s) := by
  apply SelectionConsistent_step s _ (SetStyle_PreviewOptions s Style) hs
  · rw [SetStyle_CurrentPreview, SetStyle_SelectedStyle]; exact hpass
  · intro Call hCall
    rw [SetStyle_CurrentPreview, SetStyle_SelectedStyle]
    exact SetStyle_trace_mem Style s Call hCall

theorem SelectionConsistent_SetSelection (Item : FString) (s : SEditorStyleViewer W)
    (hs : SelectionConsistent s)
    (hpass : PassesMode s s.CurrentPreview (FName.ofString Item) = true) :
    SelectionConsistent (SetSelection Item s) :=
  SelectionConsistent_SetStyle Item { s with SetSelectionTrace := s.SetSelectionTrace ++ [Item] }
    hs (Or.inr hpass)

theorem mem_OptionList_of_mem_Filtered (s : SEditorStyleViewer W) (hl : ListsConsistent s)
    (Item : FString) (h : Item ∈ s.FilteredOptionList) : Item ∈ s.OptionList := by
  rw [hl.1] at h
  exact (List.mem_filter.1 h).1

theorem SelectionConsistent_handle (Names : List FName) (e : Event) (s : SEditorStyleViewer W)
    (hl : ListsConsistent s) (hs : SelectionConsistent s) (he : Event.FromList s e) :
    SelectionConsistent (e.handle Names s) := by
  cases e with
  | ToolbarClick Name => exact SelectionConsistent_SetPreview Names Name s hs
  | SearchTextChanged ChangedText =>
    exact SelectionConsistent_RefreshOptions { s with SearchText := ChangedText } hs
  | SearchTextCommitted InText InCommitType =>
    show SelectionConsistent (OnSearchTextCommitted InText InCommitType s)
    unfold OnSearchTextCommitted
    split
    · rename_i First Rest hf
      apply SelectionConsistent_SetSelection _ s hs
      apply hl.2
      apply mem_OptionList_of_mem_Filtered s hl
      rw [hf]
      exact List.mem_cons_self _ _
    · exact hs
  | SelectionChanged Selection =>
    obtain ⟨Item, hItem, rfl⟩ := he
    exact SelectionConsistent_SetStyle Item s hs
      (Or.inr (hl.2 Item (mem_OptionList_of_mem_Filtered s hl Item hItem)))

theorem SelectionConsistent_Construct (Names : List FName)
    (InPreviewOptions : List (FEditorStylePreviewOption W)) :
    SelectionConsistent (Construct Names InPreviewOptions) := by
  unfold Construct
  simp only []
  split
  · apply SelectionConsistent_SetPreview
    exact ⟨Or.inl rfl, fun Call hCall => absurd hCall (List.not_mem_nil _)⟩
  · exact ⟨Or.inl rfl, fun Call hCall => absurd hCall (List.not_mem_nil _)⟩

theorem SelectionConsistent_of_Reachable (Names : List FName)
    (InPreviewOptions : List (FEditorStylePreviewOption W)) (s : SEditorStyleViewer W)
    (h : Reachable Event.FromList Names InPreviewOptions s) : SelectionConsistent s := by
  induction h with
  | construct => exact SelectionConsistent_Construct Names InPreviewOptions
  | event s e hr he ih =>
    exact SelectionConsistent_handle Names e s
      (ListsConsistent_of_Reachable _ Names InPreviewOptions s hr) ih he

/-- C9: in every panel reached from construction by clicks on mode buttons, search edits,
search commits and selections of entries of the filtered list, the selected style is
`NAME_None` or satisfies the predicate of the current mode when it has one; every call of a
render callback so far, of a mode with a predicate, was on `NAME_None` or on a style its
predicate accepts; and a search edit leaves the selected style as it is, also when that
style is not in the new filtered list. -/
theorem Reachable_selection_consistent (Names : List FName)
    (InPreviewOptions : List (FEditorStylePreviewOption W)) (s : SEditorStyleViewer W)
    (h : Reachable Event.FromList Names InPreviewOptions s) :
    (s.SelectedStyle = NAME_None ∨
      ∀ Option CanUseStyle, TMapFind s.PreviewOptions s.CurrentPreview = some Option →
        Option.CanUseStyle = some CanUseStyle → CanUseStyle s.SelectedStyle = true) ∧
    (∀ Mode Style, (Mode, Style) ∈ s.CreateWidgetTrace →
      ∀ Option CanUseStyle, TMapFind s.PreviewOptions Mode = some Option →
        Option.CanUseStyle = some CanUseStyle →
        Style = NAME_None ∨ CanUseStyle Style = true) ∧
    (∀ ChangedText, (OnSearchTextChanged ChangedText s).SelectedStyle = s.SelectedStyle) := by
  have hs := SelectionConsistent_of_Reachable Names InPreviewOptions s h
  refine ⟨?_, ?_, ?_⟩
  · rcases hs.1 with h1 | h1
    · exact Or.inl h1
    · right
      intro Option CanUseStyle hfind hbound
      simpa [PassesMode, hfind, FEditorStylePreviewOption.Accepts, hbound] using h1
  · intro Mode Style hCall Option CanUseStyle hfind hbound
    rcases hs.2 (Mode, Style) hCall with h1 | h1
    · exact Or.inl h1
    · right
      simpa [PassesMode, hfind, FEditorStylePreviewOption.Accepts, hbound] using h1
  · intro ChangedText
    simp [OnSearchTextChanged]

theorem Reachable_selection_consistent_witness :
    Sample.Searched.SelectedStyle = FName.ofString "Icon".toList ∧
    "ICON".toList ∉ Sample.Searched.FilteredOptionList ∧
    ∀ Option CanUseStyle,
      TMapFind Sample.Searched.PreviewOptions Sample.Searched.CurrentPreview = some Option →
      Option.CanUseStyle = some CanUseStyle →
      CanUseStyle Sample.Searched.SelectedStyle = true :=
  ⟨by decide, by decide,
    ((Reachable_selection_consistent Sample.Names Sample.Options Sample.Searched
      (Reachable.event _ _
        (Reachable.event _ _ Reachable.construct ⟨"ICON".toList, by decide, rfl⟩)
        trivial)).1).resolve_left (by decide)⟩

end EditorStyleViewer
